import Mathlib

/-!
Verification of the array-manipulation steps of the TESS long-period
notebook (`notebooks/1.Fitting-long-periods-in-tess.ipynb`).

The notebook's own code consists of:
* a hand-written `vstack` helper that block-diagonally stacks lightkurve
  design matrices and concatenates their prior vectors;
* `tpfs_uncorr`: elementwise re-addition of the scattered-light background
  (`tpf + np.nan_to_num(tpf.flux_bkg)`);
* `bigger_apers`: growing the pipeline aperture via a `np.gradient` test;
* `star_dm` pruning: dropping spline-matrix columns whose column sum is zero
  (`star_dm.X[:, star_dm.X.sum(axis=0) != 0]`);
* the inline flux-error fix
  (`lc.flux_err[~np.isfinite(lc.flux_err)] = np.nanmedian(lc.flux_err)`).

Floating-point values are idealized as exact rationals extended with
`nan`, `+inf` and `-inf`; numpy ndarrays are modelled either as nested
lists or as a contents function together with explicit dimensions.
-/

namespace TessLongPeriod

/-- Idealized IEEE double: an exact rational, or one of the special
values `nan`, positive infinity, negative infinity. -/
inductive FVal where
  | fin (q : ℚ)
  | pinf
  | ninf
  | nan
deriving DecidableEq, Repr, Inhabited

/-- `np.isnan` on a single value. -/
def isNan : FVal → Bool
  | FVal.nan => true
  | _ => false

/-- `np.isfinite` on a single value. -/
def isFinite : FVal → Bool
  | FVal.fin _ => true
  | _ => false

/-- IEEE addition on idealized doubles (exact on finite values; `nan`
absorbs; opposite infinities give `nan`). -/
def addF : FVal → FVal → FVal
  | FVal.nan, _ => FVal.nan
  | _, FVal.nan => FVal.nan
  | FVal.pinf, FVal.ninf => FVal.nan
  | FVal.ninf, FVal.pinf => FVal.nan
  | FVal.pinf, _ => FVal.pinf
  | _, FVal.pinf => FVal.pinf
  | FVal.ninf, _ => FVal.ninf
  | _, FVal.ninf => FVal.ninf
  | FVal.fin a, FVal.fin b => FVal.fin (a + b)

/-- The largest finite IEEE double, `1.7976931348623157e308`. -/
def maxFloat : ℚ := 2 ^ 1024 - 2 ^ 971

/-- `np.nan_to_num` on a single value: `nan` becomes `0`, infinities are
clipped to the largest finite double. -/
def nanToNum : FVal → FVal
  | FVal.nan => FVal.fin 0
  | FVal.pinf => FVal.fin maxFloat
  | FVal.ninf => FVal.fin (-maxFloat)
  | FVal.fin q => FVal.fin q

/-- Halving of an idealized double, used by the even-length median. -/
def half : FVal → FVal
  | FVal.fin q => FVal.fin (q / 2)
  | FVal.pinf => FVal.pinf
  | FVal.ninf => FVal.ninf
  | FVal.nan => FVal.nan

/-- numpy's sort order on doubles: `-inf` below finite values below
`+inf`, with `nan` sorted to the end. -/
def leFb : FVal → FVal → Bool
  | _, FVal.nan => true
  | FVal.nan, _ => false
  | FVal.ninf, _ => true
  | _, FVal.ninf => false
  | _, FVal.pinf => true
  | FVal.pinf, _ => false
  | FVal.fin a, FVal.fin b => decide (a ≤ b)

/-- A TPF flux cube: cadence × pixel-row × pixel-column. -/
abbrev Cube := List (List (List FVal))

/-- Apply `f` to every entry of a flux cube. -/
def map3 (f : FVal → FVal) (A : Cube) : Cube :=
  A.map (fun P => P.map (fun r => r.map f))

/-- Elementwise combination of two flux cubes. -/
def zip3With (f : FVal → FVal → FVal) (A B : Cube) : Cube :=
  List.zipWith (fun P Q => List.zipWith (fun r s => List.zipWith f r s) P Q) A B

/-- Cell `tpfs_uncorr`: `tpf + np.nan_to_num(tpf.flux_bkg)` — the
pipeline-corrected flux cube plus the sanitized background cube,
elementwise. -/
def tpfsUncorr (flux bkg : Cube) : Cube :=
  zip3With addF flux (map3 nanToNum bkg)

/-- The reading of the spec sentence for `tpfs_uncorr` without the
`nan_to_num` sanitization: plain elementwise addition of the raw
background. Stated for comparison with `tpfsUncorr`. -/
def tpfsUncorrClaimed (flux bkg : Cube) : Cube :=
  zip3With addF flux bkg

/-- `astype(int)` on a boolean pixel. -/
def b2i (b : Bool) : ℤ := if b then 1 else 0

/-- `np.gradient` of a 2-D integer array along axis 0 (rows), for an
array with `nr ≥ 2` rows: one-sided differences at the edges, central
differences (divided by 2) in the interior. -/
def grad0 (nr : ℕ) (a : ℕ → ℕ → ℤ) (i j : ℕ) : ℚ :=
  if i = 0 then ((a 1 j - a 0 j : ℤ) : ℚ)
  else if i = nr - 1 then ((a (nr - 1) j - a (nr - 2) j : ℤ) : ℚ)
  else ((a (i + 1) j - a (i - 1) j : ℤ) : ℚ) / 2

/-- `np.gradient` of a 2-D integer array along axis 1 (columns), for an
array with `nc ≥ 2` columns. -/
def grad1 (nc : ℕ) (a : ℕ → ℕ → ℤ) (i j : ℕ) : ℚ :=
  if j = 0 then ((a i 1 - a i 0 : ℤ) : ℚ)
  else if j = nc - 1 then ((a i (nc - 1) - a i (nc - 2) : ℤ) : ℚ)
  else ((a i (j + 1) - a i (j - 1) : ℤ) : ℚ) / 2

/-- Cell `bigger_apers`:
`(np.asarray(np.gradient(tpf.pipeline_mask.astype(int))) != 0).any(axis=0) | tpf.pipeline_mask`
— a pixel is in the enlarged aperture iff the gradient of the integer
mask is nonzero along either axis, or the pixel is in the pipeline
mask. The mask is an `nr × nc` boolean array given by a function. -/
def biggerAper (nr nc : ℕ) (mask : ℕ → ℕ → Bool) (i j : ℕ) : Bool :=
  (decide (grad0 nr (fun p q => b2i (mask p q)) i j ≠ 0) ||
   decide (grad1 nc (fun p q => b2i (mask p q)) i j ≠ 0)) || mask i j

/-- `X.sum(axis=0)` for a row-major 2-D array with `w` columns: the
vector of column sums. -/
def sumAxis0 (w : ℕ) (X : List (List ℚ)) : List ℚ :=
  X.foldr (fun r acc => List.zipWith (· + ·) r acc) (List.replicate w 0)

/-- The boolean column mask `X.sum(axis=0) != 0`. -/
def colMask (w : ℕ) (X : List (List ℚ)) : List Bool :=
  (sumAxis0 w X).map (fun s => decide (s ≠ 0))

/-- numpy boolean-mask indexing along a row: keep the entries whose mask
bit is `true`, in order. -/
def maskSelect (mask : List Bool) (row : List ℚ) : List ℚ :=
  (row.zip mask).filterMap (fun p => if p.2 then some p.1 else none)

/-- Cell `star_dm`: `star_dm.X[:, star_dm.X.sum(axis=0) != 0]` — keep
exactly the columns whose sum is nonzero. -/
def pruneCols (w : ℕ) (X : List (List ℚ)) : List (List ℚ) :=
  X.map (maskSelect (colMask w X))

/-- The list of the first `w` columns of a row-major 2-D array,
peeling one column at a time. -/
def colsOf : ℕ → List (List ℚ) → List (List ℚ)
  | 0, _ => []
  | w + 1, X => (X.map (fun r => r.headD 0)) :: colsOf w (X.map List.tail)

/-- Boolean-mask indexing on a list of columns (the column-level view of
`X[:, mask]`). -/
def maskCols (mask : List Bool) (cols : List (List ℚ)) : List (List ℚ) :=
  (cols.zip mask).filterMap (fun p => if p.2 then some p.1 else none)

/-- A lightkurve `LightCurve`, restricted to the fields the notebook
touches: `time`, `flux` and `flux_err` columns. -/
structure LightCurve where
  time : List FVal
  flux : List FVal
  flux_err : List FVal
deriving Repr

/-- Median of an already-sorted list of idealized doubles, numpy
convention: middle element for odd length, average of the two middle
elements for even length. -/
def medianSorted (s : List FVal) : FVal :=
  if s.length % 2 = 1 then s.getD (s.length / 2) FVal.nan
  else half (addF (s.getD (s.length / 2 - 1) FVal.nan) (s.getD (s.length / 2) FVal.nan))

/-- `np.nanmedian`: the median of the non-`nan` values (sorted with the
numpy order); `nan` if every value is `nan`. -/
def nanmedian (l : List FVal) : FVal :=
  if (l.filter (fun v => ! isNan v)).isEmpty then FVal.nan
  else medianSorted
    (List.insertionSort (fun a b => leFb a b = true) (l.filter (fun v => ! isNan v)))

/-- The inline fix `arr[~np.isfinite(arr)] = np.nanmedian(arr)`: the
right-hand side is evaluated on the original array, then every
non-finite entry is replaced by it. -/
def fixFluxErr (l : List FVal) : List FVal :=
  l.map (fun v => if isFinite v then v else nanmedian l)

/-- Cell 44: `lc.flux_err[~np.isfinite(lc.flux_err)] = np.nanmedian(lc.flux_err)`
applied to a light curve; only the `flux_err` column is touched. -/
def fixLC (lc : LightCurve) : LightCurve :=
  { lc with flux_err := fixFluxErr lc.flux_err }

/-- A lightkurve `DesignMatrix`: the 2-D array `X` (modelled as its
shape plus a contents function), the prior vectors, and a name.
`dm.shape` in the source is `dm.X.shape`, i.e. `(nrows, ncols)`. -/
structure DesignMatrix where
  nrows : ℕ
  ncols : ℕ
  X : ℕ → ℕ → ℚ
  prior_mu : List ℚ
  prior_sigma : List ℚ
  name : String

/-- A throwaway design matrix used as `getD` default. -/
def dmd : DesignMatrix :=
  { nrows := 0, ncols := 0, X := fun _ _ => 0, prior_mu := [], prior_sigma := [], name := "" }

/-- The slice assignment
`X[idx:idx+dm.shape[0], jdx:jdx+dm.shape[1]] = dm.X` on a 2-D array. -/
def blockWrite (A : ℕ → ℕ → ℚ) (idx jdx : ℕ) (d : DesignMatrix) : ℕ → ℕ → ℚ :=
  fun i j =>
    if idx ≤ i ∧ i < idx + d.nrows ∧ jdx ≤ j ∧ j < jdx + d.ncols
    then d.X (i - idx) (j - jdx) else A i j

/-- The `for dm in dms` loop of `vstack`: write each input's block at
the running offsets `(idx, jdx)`, advancing the offsets by the input's
shape. -/
def vstackLoop : List DesignMatrix → (ℕ → ℕ → ℚ) → ℕ → ℕ → (ℕ → ℕ → ℚ)
  | [], A, _, _ => A
  | d :: ds, A, idx, jdx => vstackLoop ds (blockWrite A idx jdx d) (idx + d.nrows) (jdx + d.ncols)

/-- The notebook's `vstack(dms)` helper: a fresh
`np.zeros((npoints, ncomps))` array filled block-diagonally by the
loop, `np.hstack` of the prior vectors, and the first input's name.
On the empty list the source fails (`np.zeros` on float shapes /
`dms[0]`), modelled by `none`. -/
def vstack (dms : List DesignMatrix) : Option DesignMatrix :=
  match dms with
  | [] => none
  | d0 :: rest =>
    some { nrows := ((d0 :: rest).map (fun d => d.nrows)).sum
         , ncols := ((d0 :: rest).map (fun d => d.ncols)).sum
         , X := vstackLoop (d0 :: rest) (fun _ _ => 0) 0 0
         , prior_mu := ((d0 :: rest).map (fun d => d.prior_mu)).flatten
         , prior_sigma := ((d0 :: rest).map (fun d => d.prior_sigma)).flatten
         , name := d0.name }

/-- Row offset of the `k`-th block: total rows of the preceding inputs. -/
def rowOff (dms : List DesignMatrix) (k : ℕ) : ℕ :=
  ((dms.take k).map (fun d => d.nrows)).sum

/-- Column offset of the `k`-th block: total columns of the preceding
inputs. -/
def colOff (dms : List DesignMatrix) (k : ℕ) : ℕ :=
  ((dms.take k).map (fun d => d.ncols)).sum

/-! ### Heap model of `vstack` for the frame property

numpy arrays are mutable; to state that `vstack` leaves its inputs
untouched we model a store of 2-D arrays addressed by natural numbers.
1-D arrays (the prior vectors) live in row 0 of a stored array. A
design matrix holds addresses into the store for its `X`, `prior_mu`
and `prior_sigma` arrays; `name` and the shape metadata are immutable
attributes carried in the record. -/

/-- Contents of a stored numpy array. -/
abbrev Arr := ℕ → ℕ → ℚ

/-- Read the array at address `a` (unallocated addresses read as zero
arrays; the theorems only read allocated ones). -/
def readArr (σ : List Arr) (a : ℕ) : Arr :=
  σ.getD a (fun _ _ => 0)

/-- Read a 1-D array of length `len` stored at address `a` (row 0). -/
def readVec (σ : List Arr) (a len : ℕ) : List ℚ :=
  (List.range len).map (fun t => readArr σ a 0 t)

/-- Store a 1-D array (as row 0 of a 2-D array). -/
def vecArr (v : List ℚ) : Arr :=
  fun _ j => v.getD j 0

/-- A design matrix whose arrays live in the store. -/
structure HDesignMatrix where
  nrows : ℕ
  ncols : ℕ
  Xa : ℕ
  mua : ℕ
  mulen : ℕ
  siga : ℕ
  siglen : ℕ
  name : String
deriving DecidableEq, Repr

/-- The slice assignment of the `vstack` loop as a store update: the
array at `aX` gets the block of `d`'s X array written at `(idx, jdx)`. -/
def blockWriteH (σ : List Arr) (aX idx jdx : ℕ) (d : HDesignMatrix) : List Arr :=
  σ.set aX (fun i j =>
    if idx ≤ i ∧ i < idx + d.nrows ∧ jdx ≤ j ∧ j < jdx + d.ncols
    then readArr σ d.Xa (i - idx) (j - jdx) else readArr σ aX i j)

/-- The `for dm in dms` loop of `vstack` over the store. -/
def vstackLoopH : List HDesignMatrix → List Arr → ℕ → ℕ → ℕ → List Arr
  | [], σ, _, _, _ => σ
  | d :: ds, σ, aX, idx, jdx =>
    vstackLoopH ds (blockWriteH σ aX idx jdx d) aX (idx + d.nrows) (jdx + d.ncols)

/-- Store-level `vstack`: allocate the fresh `np.zeros` array, run the
block-writing loop on it, build the `np.hstack`ed prior vectors (fresh
arrays), and return the final store with the new design matrix. -/
def vstackH (σ : List Arr) (dms : List HDesignMatrix) : List Arr × Option HDesignMatrix :=
  match dms with
  | [] => (σ, none)
  | d0 :: rest =>
    let aX := σ.length
    let σ1 := σ ++ [fun _ _ => 0]
    let σ2 := vstackLoopH (d0 :: rest) σ1 aX 0 0
    let mu := ((d0 :: rest).map (fun d => readVec σ2 d.mua d.mulen)).flatten
    let sg := ((d0 :: rest).map (fun d => readVec σ2 d.siga d.siglen)).flatten
    (σ2 ++ [vecArr mu, vecArr sg],
     some { nrows := ((d0 :: rest).map (fun d => d.nrows)).sum
          , ncols := ((d0 :: rest).map (fun d => d.ncols)).sum
          , Xa := aX
          , mua := σ2.length
          , mulen := mu.length
          , siga := σ2.length + 1
          , siglen := sg.length
          , name := d0.name })

/-! ### Helper lemmas -/

theorem getD_of_lt {α : Type} (l : List α) (d : α) (n : ℕ) (h : n < l.length) :
    l.getD n d = l[n] := by
  simp [List.getD_eq_getElem?_getD, List.getElem?_eq_getElem h]

theorem vstackLoop_low (ds : List DesignMatrix) (A : ℕ → ℕ → ℚ) (idx jdx i j : ℕ)
    (h : i < idx ∨ j < jdx) :
    vstackLoop ds A idx jdx i j = A i j := by
  induction ds generalizing A idx jdx with
  | nil => rfl
  | cons d ds ih =>
    rw [vstackLoop, ih _ _ _ (by omega)]
    rw [blockWrite]
    rw [if_neg (by omega)]

theorem vstackLoop_block (ds : List DesignMatrix) (A : ℕ → ℕ → ℚ) (idx jdx k : ℕ)
    (hk : k < ds.length) (i j : ℕ)
    (hi : i < (ds.getD k dmd).nrows) (hj : j < (ds.getD k dmd).ncols) :
    vstackLoop ds A idx jdx (idx + rowOff ds k + i) (jdx + colOff ds k + j)
      = (ds.getD k dmd).X i j := by
  induction ds generalizing A idx jdx k with
  | nil => exact absurd hk (by simp)
  | cons d ds ih =>
    cases k with
    | zero =>
      simp only [List.getD_cons_zero] at hi hj ⊢
      have hro : rowOff (d :: ds) 0 = 0 := rfl
      have hco : colOff (d :: ds) 0 = 0 := rfl
      rw [hro, hco, vstackLoop, vstackLoop_low _ _ _ _ _ _ (by omega)]
      rw [blockWrite, if_pos (by omega)]
      congr 1 <;> omega
    | succ k =>
      simp only [List.getD_cons_succ] at hi hj ⊢
      have hro : rowOff (d :: ds) (k + 1) = d.nrows + rowOff ds k := by
        simp [rowOff, List.take_succ_cons]
      have hco : colOff (d :: ds) (k + 1) = d.ncols + colOff ds k := by
        simp [colOff, List.take_succ_cons]
      rw [vstackLoop]
      have hpos : idx + rowOff (d :: ds) (k + 1) + i = (idx + d.nrows) + rowOff ds k + i := by
        omega
      have hpos2 : jdx + colOff (d :: ds) (k + 1) + j = (jdx + d.ncols) + colOff ds k + j := by
        omega
      rw [hpos, hpos2]
      exact ih _ _ _ k (by simpa using hk) hi hj

theorem vstackLoop_outside (ds : List DesignMatrix) (A : ℕ → ℕ → ℚ) (idx jdx i j : ℕ)
    (h : ∀ k, k < ds.length →
      ¬ (idx + rowOff ds k ≤ i ∧ i < idx + rowOff ds k + (ds.getD k dmd).nrows ∧
         jdx + colOff ds k ≤ j ∧ j < jdx + colOff ds k + (ds.getD k dmd).ncols)) :
    vstackLoop ds A idx jdx i j = A i j := by
  induction ds generalizing A idx jdx with
  | nil => rfl
  | cons d ds ih =>
    rw [vstackLoop, ih]
    · rw [blockWrite]
      have h0 := h 0 (by simp)
      simp only [List.getD_cons_zero] at h0
      have hro : rowOff (d :: ds) 0 = 0 := rfl
      have hco : colOff (d :: ds) 0 = 0 := rfl
      rw [hro, hco] at h0
      rw [if_neg (by omega)]
    · intro k hk
      have hk1 := h (k + 1) (by simpa using hk)
      simp only [List.getD_cons_succ] at hk1
      have hro : rowOff (d :: ds) (k + 1) = d.nrows + rowOff ds k := by
        simp [rowOff, List.take_succ_cons]
      have hco : colOff (d :: ds) (k + 1) = d.ncols + colOff ds k := by
        simp [colOff, List.take_succ_cons]
      rw [hro, hco] at hk1
      omega

/-! ### Claims about `vstack` -/

/-- C1: for every non-empty list of design matrices the matrix returned
by `vstack` has row count the sum of the inputs' row counts and column
count the sum of the inputs' column counts; input `k`'s X values occupy
the block at row offset `rowOff k` and column offset `colOff k`, and
every entry outside the diagonal blocks is zero. -/
theorem vstack_block_diagonal (d0 : DesignMatrix) (rest : List DesignMatrix) :
    ∃ v, vstack (d0 :: rest) = some v ∧
      v.nrows = (((d0 :: rest)).map (fun d => d.nrows)).sum ∧
      v.ncols = (((d0 :: rest)).map (fun d => d.ncols)).sum ∧
      (∀ k, k < (d0 :: rest).length →
        ∀ i j, i < ((d0 :: rest).getD k dmd).nrows → j < ((d0 :: rest).getD k dmd).ncols →
          v.X (rowOff (d0 :: rest) k + i) (colOff (d0 :: rest) k + j)
            = ((d0 :: rest).getD k dmd).X i j) ∧
      (∀ i j,
        (∀ k, k < (d0 :: rest).length →
          ¬ (rowOff (d0 :: rest) k ≤ i ∧
             i < rowOff (d0 :: rest) k + ((d0 :: rest).getD k dmd).nrows ∧
             colOff (d0 :: rest) k ≤ j ∧
             j < colOff (d0 :: rest) k + ((d0 :: rest).getD k dmd).ncols)) →
          v.X i j = 0) := by
  refine ⟨_, rfl, rfl, rfl, ?_, ?_⟩
  · intro k hk i j hi hj
    have := vstackLoop_block (d0 :: rest) (fun _ _ => 0) 0 0 k hk i j hi hj
    simpa using this
  · intro i j hout
    have := vstackLoop_outside (d0 :: rest) (fun _ _ => 0) 0 0 i j (by simpa using hout)
    simpa using this

/-- C1 witness: `vstack` of two concrete 1×1 design matrices, one block
entry checked for each input and one off-diagonal entry checked zero. -/
theorem vstack_block_diagonal_witness :
    ∃ v, vstack [{ nrows := 1, ncols := 1, X := fun _ _ => 5, prior_mu := [0],
                   prior_sigma := [1], name := "bkg" },
                 { nrows := 1, ncols := 1, X := fun _ _ => 7, prior_mu := [0],
                   prior_sigma := [1], name := "bkg" }] = some v ∧
      v.nrows = 2 ∧ v.ncols = 2 ∧
      v.X 0 0 = 5 ∧ v.X 1 1 = 7 ∧ v.X 0 1 = 0 := by
  obtain ⟨v, hv, hr, hc, hblk, hout⟩ := vstack_block_diagonal
    { nrows := 1, ncols := 1, X := fun _ _ => 5, prior_mu := [0],
      prior_sigma := [1], name := "bkg" }
    [{ nrows := 1, ncols := 1, X := fun _ _ => 7, prior_mu := [0],
       prior_sigma := [1], name := "bkg" }]
  refine ⟨v, hv, by simpa using hr, by simpa using hc, ?_, ?_, ?_⟩
  · have := hblk 0 (by decide) 0 0 (by decide) (by decide)
    simpa [rowOff, colOff] using this
  · have := hblk 1 (by decide) 0 0 (by decide) (by decide)
    simpa [rowOff, colOff] using this
  · have := hout 0 1 (by decide)
    simpa using this

/-- C2: the prior vectors of the stacked matrix are the concatenations,
in input order, of the inputs' prior vectors, and their lengths equal
the output column count whenever each input's prior vectors match its
column count. -/
theorem vstack_priors (d0 : DesignMatrix) (rest : List DesignMatrix) :
    ∃ v, vstack (d0 :: rest) = some v ∧
      v.prior_mu = ((d0 :: rest).map (fun d => d.prior_mu)).flatten ∧
      v.prior_sigma = ((d0 :: rest).map (fun d => d.prior_sigma)).flatten ∧
      ((∀ d ∈ d0 :: rest, d.prior_mu.length = d.ncols) → v.prior_mu.length = v.ncols) ∧
      ((∀ d ∈ d0 :: rest, d.prior_sigma.length = d.ncols) → v.prior_sigma.length = v.ncols) := by
  refine ⟨_, rfl, rfl, rfl, ?_, ?_⟩
  · intro hwf
    show (((d0 :: rest).map (fun d => d.prior_mu)).flatten).length
        = ((d0 :: rest).map (fun d => d.ncols)).sum
    rw [List.length_flatten, List.map_map]
    congr 1
    exact List.map_congr_left fun d hd => hwf d hd
  · intro hwf
    show (((d0 :: rest).map (fun d => d.prior_sigma)).flatten).length
        = ((d0 :: rest).map (fun d => d.ncols)).sum
    rw [List.length_flatten, List.map_map]
    congr 1
    exact List.map_congr_left fun d hd => hwf d hd

/-- C2 witness: concrete two-matrix stack, priors concatenate and the
length facts hold with the well-formedness hypotheses discharged. -/
theorem vstack_priors_witness :
    ∃ v, vstack [{ nrows := 1, ncols := 2, X := fun _ _ => 0, prior_mu := [1, 2],
                   prior_sigma := [5, 6], name := "bkg" },
                 { nrows := 1, ncols := 1, X := fun _ _ => 0, prior_mu := [3],
                   prior_sigma := [7], name := "bkg" }] = some v ∧
      v.prior_mu = [1, 2, 3] ∧ v.prior_sigma = [5, 6, 7] ∧
      v.prior_mu.length = v.ncols ∧ v.prior_sigma.length = v.ncols := by
  obtain ⟨v, hv, hmu, hsig, hlmu, hlsig⟩ := vstack_priors
    { nrows := 1, ncols := 2, X := fun _ _ => 0, prior_mu := [1, 2],
      prior_sigma := [5, 6], name := "bkg" }
    [{ nrows := 1, ncols := 1, X := fun _ _ => 0, prior_mu := [3],
       prior_sigma := [7], name := "bkg" }]
  refine ⟨v, hv, by simpa using hmu, by simpa using hsig, ?_, ?_⟩
  · exact hlmu (by intro d hd; fin_cases hd <;> rfl)
  · exact hlsig (by intro d hd; fin_cases hd <;> rfl)

/-- C3: `vstack` fails exactly on the empty input list — it returns
`none` iff the list is empty, so for every non-empty list it returns a
design matrix. -/
theorem vstack_none_iff (dms : List DesignMatrix) :
    vstack dms = none ↔ dms = [] := by
  cases dms <;> simp [vstack]

/-- C10: the name of the stacked design matrix is the first input's
name, whatever the remaining names are. -/
theorem vstack_name (d0 : DesignMatrix) (rest : List DesignMatrix) :
    ∃ v, vstack (d0 :: rest) = some v ∧ v.name = d0.name :=
  ⟨_, rfl, rfl⟩

/-! ### Frame property of `vstack` (heap model) -/

theorem readArr_set_ne (σ : List Arr) (a b : ℕ) (f : Arr) (h : b ≠ a) :
    readArr (σ.set b f) a = readArr σ a := by
  simp [readArr, List.getD_eq_getElem?_getD, List.getElem?_set_ne h]

theorem readArr_append_left (σ l : List Arr) (a : ℕ) (h : a < σ.length) :
    readArr (σ ++ l) a = readArr σ a := by
  simp [readArr, List.getD_eq_getElem?_getD, List.getElem?_append_left h]

theorem vstackLoopH_length (ds : List HDesignMatrix) (σ : List Arr) (aX idx jdx : ℕ) :
    (vstackLoopH ds σ aX idx jdx).length = σ.length := by
  induction ds generalizing σ idx jdx with
  | nil => rfl
  | cons d ds ih => rw [vstackLoopH, ih, blockWriteH, List.length_set]

theorem vstackLoopH_frame (ds : List HDesignMatrix) (σ : List Arr) (aX idx jdx a : ℕ)
    (h : a ≠ aX) :
    readArr (vstackLoopH ds σ aX idx jdx) a = readArr σ a := by
  induction ds generalizing σ idx jdx with
  | nil => rfl
  | cons d ds ih =>
    rw [vstackLoopH, ih, blockWriteH, readArr_set_ne _ _ _ _ (fun hc => h hc.symm)]

theorem vstackH_frame_arr (σ : List Arr) (dms : List HDesignMatrix) (a : ℕ)
    (ha : a < σ.length) :
    readArr (vstackH σ dms).1 a = readArr σ a := by
  cases dms with
  | nil => rfl
  | cons d0 rest =>
    show readArr
      (vstackLoopH (d0 :: rest) (σ ++ [fun _ _ => 0]) σ.length 0 0 ++ [_, _]) a = _
    rw [readArr_append_left _ _ _ (by rw [vstackLoopH_length, List.length_append]; simp; omega)]
    rw [vstackLoopH_frame _ _ _ _ _ _ (by omega)]
    rw [readArr_append_left _ _ _ ha]

/-- C4: `vstack` is stateless with respect to its inputs — after the
call, every input design matrix's `X` array, `prior_mu` array and
`prior_sigma` array read back from the store exactly as before the
call (and `name`, an immutable attribute of the record, is untouched
by construction): the call only reads the inputs and writes freshly
allocated arrays. -/
theorem vstack_frame (σ : List Arr) (dms : List HDesignMatrix)
    (hv : ∀ d ∈ dms, d.Xa < σ.length ∧ d.mua < σ.length ∧ d.siga < σ.length) :
    ∀ d ∈ dms,
      readArr (vstackH σ dms).1 d.Xa = readArr σ d.Xa ∧
      readVec (vstackH σ dms).1 d.mua d.mulen = readVec σ d.mua d.mulen ∧
      readVec (vstackH σ dms).1 d.siga d.siglen = readVec σ d.siga d.siglen := by
  intro d hd
  obtain ⟨hX, hmu, hsig⟩ := hv d hd
  refine ⟨vstackH_frame_arr σ dms d.Xa hX, ?_, ?_⟩
  · simp [readVec, vstackH_frame_arr σ dms d.mua hmu]
  · simp [readVec, vstackH_frame_arr σ dms d.siga hsig]

/-- C4 witness: a concrete store with one input design matrix; its
arrays read identically before and after the call. -/
theorem vstack_frame_witness :
    readArr (vstackH [fun i j => (i + 2 * j : ℚ)]
        [{ nrows := 2, ncols := 1, Xa := 0, mua := 0, mulen := 1,
           siga := 0, siglen := 1, name := "bkg" }]).1 0
      = readArr [fun i j => (i + 2 * j : ℚ)] 0 :=
  (vstack_frame [fun i j => (i + 2 * j : ℚ)]
    [{ nrows := 2, ncols := 1, Xa := 0, mua := 0, mulen := 1,
       siga := 0, siglen := 1, name := "bkg" }]
    (by intro d hd; fin_cases hd; exact ⟨by decide, by decide, by decide⟩)
    { nrows := 2, ncols := 1, Xa := 0, mua := 0, mulen := 1,
      siga := 0, siglen := 1, name := "bkg" }
    (by simp)).1

/-! ### Background re-addition (`tpfs_uncorr`) -/

theorem getD_zipWith {α β γ : Type} (f : α → β → γ) (a : List α) (b : List β)
    (da : α) (db : β) (dc : γ) (j : ℕ) (hj : j < a.length) (hl : a.length = b.length) :
    (List.zipWith f a b).getD j dc = f (a.getD j da) (b.getD j db) := by
  have hj2 : j < b.length := by omega
  have hj3 : j < (List.zipWith f a b).length := by rw [List.length_zipWith]; omega
  rw [getD_of_lt _ _ _ hj3, getD_of_lt _ _ _ hj, getD_of_lt _ _ _ hj2, List.getElem_zipWith]

theorem getD_map {α β : Type} (f : α → β) (l : List α) (da : α) (db : β) (j : ℕ)
    (hj : j < l.length) :
    (l.map f).getD j db = f (l.getD j da) := by
  have hj2 : j < (l.map f).length := by rw [List.length_map]; omega
  rw [getD_of_lt _ _ _ hj2, getD_of_lt _ _ _ hj, List.getElem_map]

theorem tpfsUncorr_getD (flux bkg : Cube) (t i j : ℕ)
    (ht : t < flux.length) (hl1 : flux.length = bkg.length)
    (hi : i < (flux.getD t []).length)
    (hl2 : (flux.getD t []).length = (bkg.getD t []).length)
    (hj : j < ((flux.getD t []).getD i []).length)
    (hl3 : ((flux.getD t []).getD i []).length = ((bkg.getD t []).getD i []).length) :
    (((tpfsUncorr flux bkg).getD t []).getD i []).getD j FVal.nan
      = addF (((flux.getD t []).getD i []).getD j FVal.nan)
             (nanToNum (((bkg.getD t []).getD i []).getD j FVal.nan)) := by
  unfold tpfsUncorr zip3With map3
  rw [getD_zipWith _ flux _ [] [] [] t ht (by rw [List.length_map]; omega)]
  rw [getD_map _ bkg [] [] t (by omega)]
  rw [getD_zipWith _ _ _ [] [] [] i hi (by rw [List.length_map]; omega)]
  rw [getD_map _ (bkg.getD t []) [] [] i (by omega)]
  rw [getD_zipWith _ _ _ FVal.nan FVal.nan FVal.nan j hj (by rw [List.length_map]; omega)]
  rw [getD_map _ ((bkg.getD t []).getD i []) FVal.nan FVal.nan j (by omega)]

theorem addF_nanToNum_nan (v : FVal) : addF v (nanToNum FVal.nan) = v := by
  cases v <;> simp [addF, nanToNum]

/-- C5 counterexample: with a corrected flux value `1` and a `nan`
background value, the reconstructed cube produced by the code is
`[[[1]]]` (because `nan_to_num` turns the `nan` into `0`), while plain
elementwise addition of the raw background — what the claim states —
gives `[[[nan]]]`. -/
theorem tpfs_uncorr_raw_addition_counterexample :
    tpfsUncorr [[[FVal.fin 1]]] [[[FVal.nan]]]
      ≠ tpfsUncorrClaimed [[[FVal.fin 1]]] [[[FVal.nan]]] := by
  decide

/-- C5 (amended): each flux value of the reconstructed 'uncorrected'
pixel data equals the SPOC-corrected flux value plus the `nan_to_num`
of the corresponding background value, elementwise over all cadences
and pixels. -/
theorem tpfs_uncorr_adds_sanitized_bkg (flux bkg : Cube) (t i j : ℕ)
    (ht : t < flux.length) (hl1 : flux.length = bkg.length)
    (hi : i < (flux.getD t []).length)
    (hl2 : (flux.getD t []).length = (bkg.getD t []).length)
    (hj : j < ((flux.getD t []).getD i []).length)
    (hl3 : ((flux.getD t []).getD i []).length = ((bkg.getD t []).getD i []).length) :
    (((tpfsUncorr flux bkg).getD t []).getD i []).getD j FVal.nan
      = addF (((flux.getD t []).getD i []).getD j FVal.nan)
             (nanToNum (((bkg.getD t []).getD i []).getD j FVal.nan)) :=
  tpfsUncorr_getD flux bkg t i j ht hl1 hi hl2 hj hl3

/-- C5 witness: a concrete 1×1×1 cube with finite values, `2 + 3 = 5`. -/
theorem tpfs_uncorr_adds_sanitized_bkg_witness :
    (((tpfsUncorr [[[FVal.fin 2]]] [[[FVal.fin 3]]]).getD 0 []).getD 0 []).getD 0 FVal.nan
      = addF ((([[[FVal.fin 2]]].getD 0 []).getD 0 []).getD 0 FVal.nan)
             (nanToNum ((([[[FVal.fin 3]]].getD 0 []).getD 0 []).getD 0 FVal.nan)) :=
  tpfs_uncorr_adds_sanitized_bkg [[[FVal.fin 2]]] [[[FVal.fin 3]]] 0 0 0
    (by decide) (by decide) (by decide) (by decide) (by decide) (by decide)

/-- C6: wherever the scattered-light background is `nan`, `nan_to_num`
makes it `0`, so the reconstructed 'uncorrected' flux equals the
SPOC-corrected flux unchanged at that cadence and pixel. -/
theorem tpfs_uncorr_nan_bkg_unchanged (flux bkg : Cube) (t i j : ℕ)
    (ht : t < flux.length) (hl1 : flux.length = bkg.length)
    (hi : i < (flux.getD t []).length)
    (hl2 : (flux.getD t []).length = (bkg.getD t []).length)
    (hj : j < ((flux.getD t []).getD i []).length)
    (hl3 : ((flux.getD t []).getD i []).length = ((bkg.getD t []).getD i []).length)
    (hnan : ((bkg.getD t []).getD i []).getD j FVal.nan = FVal.nan) :
    (((tpfsUncorr flux bkg).getD t []).getD i []).getD j FVal.nan
      = ((flux.getD t []).getD i []).getD j FVal.nan := by
  rw [tpfsUncorr_getD flux bkg t i j ht hl1 hi hl2 hj hl3, hnan, addF_nanToNum_nan]

/-- C6 witness: flux value `4` with a `nan` background value comes back
unchanged. -/
theorem tpfs_uncorr_nan_bkg_unchanged_witness :
    (((tpfsUncorr [[[FVal.fin 4]]] [[[FVal.nan]]]).getD 0 []).getD 0 []).getD 0 FVal.nan
      = (([[[FVal.fin 4]]].getD 0 []).getD 0 []).getD 0 FVal.nan :=
  tpfs_uncorr_nan_bkg_unchanged [[[FVal.fin 4]]] [[[FVal.nan]]] 0 0 0
    (by decide) (by decide) (by decide) (by decide) (by decide) (by decide) (by decide)

/-! ### Aperture growth (`bigger_apers`) -/

theorem b2i_eq_zero (b : Bool) (h : b = false) : b2i b = 0 := by
  simp [b2i, h]

theorem grad0_ne_zero_neighbor (nr : ℕ) (mask : ℕ → ℕ → Bool) (i j : ℕ)
    (hnr : 2 ≤ nr) (hi : i < nr) (hm : mask i j = false)
    (hg : grad0 nr (fun p q => b2i (mask p q)) i j ≠ 0) :
    ∃ p, p < nr ∧ mask p j = true ∧ (p = i + 1 ∨ p + 1 = i) := by
  rw [grad0] at hg
  by_cases h0 : i = 0
  · rw [if_pos h0] at hg
    subst h0
    cases h1 : mask 1 j with
    | false => exact absurd (by simp [b2i_eq_zero _ hm, b2i_eq_zero _ h1]) hg
    | true => exact ⟨1, by omega, h1, Or.inl rfl⟩
  · rw [if_neg h0] at hg
    by_cases h1 : i = nr - 1
    · rw [if_pos h1] at hg
      cases h2 : mask (nr - 2) j with
      | false =>
        have hm2 : mask (nr - 1) j = false := by rw [← h1]; exact hm
        exact absurd (by simp [b2i_eq_zero _ hm2, b2i_eq_zero _ h2]) hg
      | true => exact ⟨nr - 2, by omega, h2, Or.inr (by omega)⟩
    · rw [if_neg h1] at hg
      cases h2 : mask (i + 1) j with
      | true => exact ⟨i + 1, by omega, h2, Or.inl rfl⟩
      | false =>
        cases h3 : mask (i - 1) j with
        | true => exact ⟨i - 1, by omega, h3, Or.inr (by omega)⟩
        | false => exact absurd (by simp [b2i_eq_zero _ h2, b2i_eq_zero _ h3]) hg

theorem grad1_ne_zero_neighbor (nc : ℕ) (mask : ℕ → ℕ → Bool) (i j : ℕ)
    (hnc : 2 ≤ nc) (hj : j < nc) (hm : mask i j = false)
    (hg : grad1 nc (fun p q => b2i (mask p q)) i j ≠ 0) :
    ∃ q, q < nc ∧ mask i q = true ∧ (q = j + 1 ∨ q + 1 = j) := by
  rw [grad1] at hg
  by_cases h0 : j = 0
  · rw [if_pos h0] at hg
    subst h0
    cases h1 : mask i 1 with
    | false => exact absurd (by simp [b2i_eq_zero _ hm, b2i_eq_zero _ h1]) hg
    | true => exact ⟨1, by omega, h1, Or.inl rfl⟩
  · rw [if_neg h0] at hg
    by_cases h1 : j = nc - 1
    · rw [if_pos h1] at hg
      cases h2 : mask i (nc - 2) with
      | false =>
        have hm2 : mask i (nc - 1) = false := by rw [← h1]; exact hm
        exact absurd (by simp [b2i_eq_zero _ hm2, b2i_eq_zero _ h2]) hg
      | true => exact ⟨nc - 2, by omega, h2, Or.inr (by omega)⟩
    · rw [if_neg h1] at hg
      cases h2 : mask i (j + 1) with
      | true => exact ⟨j + 1, by omega, h2, Or.inl rfl⟩
      | false =>
        cases h3 : mask i (j - 1) with
        | true => exact ⟨j - 1, by omega, h3, Or.inr (by omega)⟩
        | false => exact absurd (by simp [b2i_eq_zero _ h2, b2i_eq_zero _ h3]) hg

/-- C7: for a pipeline mask of at least 2×2 pixels, the enlarged
aperture contains the pipeline mask, and every pixel it adds beyond the
pipeline mask has a pipeline-mask pixel one step away along its row or
column — the aperture is grown by (at most) one pixel. -/
theorem bigger_apers_superset_and_adjacent (nr nc : ℕ) (mask : ℕ → ℕ → Bool)
    (hnr : 2 ≤ nr) (hnc : 2 ≤ nc) :
    (∀ i j, i < nr → j < nc → mask i j = true → biggerAper nr nc mask i j = true) ∧
    (∀ i j, i < nr → j < nc → biggerAper nr nc mask i j = true → mask i j = false →
      ∃ p q, p < nr ∧ q < nc ∧ mask p q = true ∧
        ((p = i ∧ (q = j + 1 ∨ q + 1 = j)) ∨ (q = j ∧ (p = i + 1 ∨ p + 1 = i)))) := by
  constructor
  · intro i j _ _ hm
    simp [biggerAper, hm]
  · intro i j hi hj hb hm
    rw [biggerAper, hm] at hb
    simp only [Bool.or_false, Bool.or_eq_true, decide_eq_true_eq] at hb
    rcases hb with hg | hg
    · obtain ⟨p, hp, hmp, hadj⟩ := grad0_ne_zero_neighbor nr mask i j hnr hi hm hg
      exact ⟨p, j, hp, hj, hmp, Or.inr ⟨rfl, hadj⟩⟩
    · obtain ⟨q, hq, hmq, hadj⟩ := grad1_ne_zero_neighbor nc mask i j hnc hj hm hg
      exact ⟨i, q, hi, hq, hmq, Or.inl ⟨rfl, hadj⟩⟩

/-- C7 witness: a 3×3 mask containing only the center pixel; the center
stays in the enlarged aperture, and the added pixel `(0,1)` has the
mask pixel `(1,1)` one row away. -/
theorem bigger_apers_superset_and_adjacent_witness :
    (biggerAper 3 3 (fun p q => p = 1 && q = 1) 1 1 = true) ∧
    ∃ p q, p < 3 ∧ q < 3 ∧ (p = 1 && q = 1) = true ∧
      ((p = 0 ∧ (q = 1 + 1 ∨ q + 1 = 1)) ∨ (q = 1 ∧ (p = 0 + 1 ∨ p + 1 = 0))) := by
  obtain ⟨hsup, hadj⟩ :=
    bigger_apers_superset_and_adjacent 3 3 (fun p q => p = 1 && q = 1) (by decide) (by decide)
  refine ⟨hsup 1 1 (by decide) (by decide) (by decide), ?_⟩
  exact hadj 0 1 (by decide) (by decide) (by decide) (by decide)

/-! ### Spline-matrix column pruning (`star_dm`) -/

theorem sumAxis0_cons (w : ℕ) (r : List ℚ) (rs : List (List ℚ)) :
    sumAxis0 w (r :: rs) = List.zipWith (· + ·) r (sumAxis0 w rs) := rfl

theorem sumAxis0_zero (X : List (List ℚ)) : sumAxis0 0 X = [] := by
  induction X with
  | nil => rfl
  | cons r rs ih => rw [sumAxis0_cons, ih, List.zipWith_nil_right]

theorem sumAxis0_succ (w : ℕ) (X : List (List ℚ)) (hX : ∀ r ∈ X, r.length = w + 1) :
    sumAxis0 (w + 1) X
      = (X.map (fun r => r.headD 0)).sum :: sumAxis0 w (X.map List.tail) := by
  induction X with
  | nil => simp [sumAxis0, List.replicate_succ]
  | cons r rs ih =>
    cases r with
    | nil => exact absurd (hX [] (by simp)) (by simp)
    | cons x t =>
      rw [sumAxis0_cons, ih (fun r hr => hX r (by simp [hr]))]
      simp [sumAxis0_cons]

theorem colsOf_length (w : ℕ) (X : List (List ℚ)) : (colsOf w X).length = w := by
  induction w generalizing X with
  | zero => rfl
  | succ w ih => simp [colsOf, ih]

theorem sumAxis0_eq_cols (w : ℕ) (X : List (List ℚ)) (hX : ∀ r ∈ X, r.length = w) :
    sumAxis0 w X = (colsOf w X).map List.sum := by
  induction w generalizing X with
  | zero => rw [sumAxis0_zero]; rfl
  | succ w ih =>
    rw [sumAxis0_succ w X hX, colsOf, List.map_cons]
    congr 1
    refine ih (X.map List.tail) ?_
    intro r hr
    obtain ⟨s, hs, rfl⟩ := List.mem_map.mp hr
    have := hX s hs
    simp [List.length_tail, this]

theorem maskCols_nil (mask : List Bool) : maskCols mask [] = [] := by
  simp [maskCols]

theorem maskCols_cons (b : Bool) (m : List Bool) (c : List ℚ) (cs : List (List ℚ)) :
    maskCols (b :: m) (c :: cs) = if b then c :: maskCols m cs else maskCols m cs := by
  cases b <;> simp [maskCols]

theorem maskCols_map_filter (p : List ℚ → Bool) (cols : List (List ℚ)) :
    maskCols (cols.map p) cols = cols.filter p := by
  induction cols with
  | nil => rfl
  | cons c cs ih =>
    rw [List.map_cons, maskCols_cons, List.filter_cons]
    cases hp : p c <;> simp [ih]

theorem maskSelect_cons (b : Bool) (m : List Bool) (x : ℚ) (t : List ℚ) :
    maskSelect (b :: m) (x :: t) = if b then x :: maskSelect m t else maskSelect m t := by
  cases b <;> simp [maskSelect]

theorem colsOf_map_maskSelect (mask : List Bool) (X : List (List ℚ))
    (hX : ∀ r ∈ X, r.length = mask.length) :
    colsOf (mask.count true) (X.map (maskSelect mask))
      = maskCols mask (colsOf mask.length X) := by
  induction mask generalizing X with
  | nil => rfl
  | cons b m ih =>
    have hrow : ∀ r ∈ X,
        maskSelect (b :: m) r
          = if b then r.headD 0 :: maskSelect m r.tail else maskSelect m r.tail := by
      intro r hr
      have hlen := hX r hr
      cases r with
      | nil => simp at hlen
      | cons x t => rw [maskSelect_cons]; rfl
    have htails : ∀ r ∈ X.map List.tail, r.length = m.length := by
      intro r hr
      obtain ⟨s, hs, rfl⟩ := List.mem_map.mp hr
      have := hX s hs
      simp [List.length_tail, this]
    have hcolsX : colsOf (b :: m).length X
        = (X.map (fun r => r.headD 0)) :: colsOf m.length (X.map List.tail) := rfl
    cases b with
    | true =>
      have hmap : X.map (maskSelect (true :: m))
          = X.map (fun r => r.headD 0 :: maskSelect m r.tail) :=
        List.map_congr_left (fun r hr => by rw [hrow r hr]; rfl)
      have hcount : (true :: m).count true = m.count true + 1 := by
        simp [List.count_cons]
      rw [hmap, hcount, colsOf, hcolsX, maskCols_cons, if_pos rfl]
      congr 1
      · rw [List.map_map]; rfl
      · rw [List.map_map]
        have : (X.map (List.tail ∘ fun r => r.headD 0 :: maskSelect m r.tail))
            = (X.map List.tail).map (maskSelect m) := by
          rw [List.map_map]; rfl
        rw [this, ih (X.map List.tail) htails]
    | false =>
      have hmap : X.map (maskSelect (false :: m))
          = (X.map List.tail).map (maskSelect m) := by
        rw [List.map_map]
        exact List.map_congr_left (fun r hr => by rw [hrow r hr]; rfl)
      have hcount : (false :: m).count true = m.count true := by
        simp [List.count_cons]
      rw [hmap, hcount, hcolsX, maskCols_cons, if_neg (by simp)]
      exact ih (X.map List.tail) htails

/-- C8: the pruned spline matrix keeps exactly the columns of the
original matrix whose entries sum to a nonzero value, in their original
order; consequently every remaining column has nonzero sum, so no
all-zero column remains. -/
theorem star_dm_prune (w : ℕ) (X : List (List ℚ)) (hX : ∀ r ∈ X, r.length = w) :
    colsOf ((colMask w X).count true) (pruneCols w X)
      = (colsOf w X).filter (fun c => decide (c.sum ≠ 0)) ∧
    ∀ c ∈ colsOf ((colMask w X).count true) (pruneCols w X),
      c.sum ≠ 0 ∧ ¬ (∀ x ∈ c, x = 0) := by
  have hmask_eq : colMask w X = (colsOf w X).map (fun c => decide (c.sum ≠ 0)) := by
    rw [colMask, sumAxis0_eq_cols w X hX, List.map_map]; rfl
  have hmask_len : (colMask w X).length = w := by
    rw [hmask_eq, List.length_map, colsOf_length]
  have h1 : colsOf ((colMask w X).count true) (pruneCols w X)
      = maskCols (colMask w X) (colsOf (colMask w X).length X) :=
    colsOf_map_maskSelect (colMask w X) X (fun r hr => by rw [hmask_len]; exact hX r hr)
  rw [hmask_len] at h1
  have hfilter : colsOf ((colMask w X).count true) (pruneCols w X)
      = (colsOf w X).filter (fun c => decide (c.sum ≠ 0)) := by
    rw [h1, hmask_eq, maskCols_map_filter]
  refine ⟨hfilter, ?_⟩
  intro c hc
  rw [hfilter] at hc
  have hsum : c.sum ≠ 0 := by
    have := (List.mem_filter.mp hc).2
    simpa using this
  exact ⟨hsum, fun hall => hsum (List.sum_eq_zero hall)⟩

/-- C8 witness: a 2×3 matrix with column sums `[4, 0, 0]`; only the
first column survives. -/
theorem star_dm_prune_witness :
    colsOf ((colMask 3 [[1, 0, 2], [3, 0, -2]]).count true) (pruneCols 3 [[1, 0, 2], [3, 0, -2]])
      = (colsOf 3 [[1, 0, 2], [3, 0, -2]]).filter (fun c => decide (c.sum ≠ 0)) ∧
    ∀ c ∈ colsOf ((colMask 3 [[1, 0, 2], [3, 0, -2]]).count true)
        (pruneCols 3 [[1, 0, 2], [3, 0, -2]]),
      c.sum ≠ 0 ∧ ¬ (∀ x ∈ c, x = 0) :=
  star_dm_prune 3 [[1, 0, 2], [3, 0, -2]] (by intro r hr; fin_cases hr <;> rfl)

/-! ### The inline flux-error fix -/

theorem exists_fin_of_finite (v : FVal) (h : isFinite v = true) : ∃ q, v = FVal.fin q := by
  cases v with
  | fin q => exact ⟨q, rfl⟩
  | pinf => simp [isFinite] at h
  | ninf => simp [isFinite] at h
  | nan => simp [isFinite] at h

theorem nanmedian_finite (l : List FVal)
    (hfin : ∃ v ∈ l, isFinite v = true)
    (hinf : ∀ v ∈ l, v ≠ FVal.pinf ∧ v ≠ FVal.ninf) :
    isFinite (nanmedian l) = true := by
  obtain ⟨v, hv, hfv⟩ := hfin
  have hvnan : isNan v = false := by cases v <;> simp_all [isNan, isFinite]
  have hvmem : v ∈ l.filter (fun v => ! isNan v) :=
    List.mem_filter.mpr ⟨hv, by simp [hvnan]⟩
  have hne : l.filter (fun v => ! isNan v) ≠ [] := List.ne_nil_of_mem hvmem
  have hall : ∀ x ∈ l.filter (fun v => ! isNan v), isFinite x = true := by
    intro x hx
    obtain ⟨hxl, hxnan⟩ := List.mem_filter.mp hx
    obtain ⟨hp, hn⟩ := hinf x hxl
    cases x <;> simp_all [isNan, isFinite]
  rw [nanmedian, if_neg (by simp [List.isEmpty_iff, hne])]
  have hs_mem : ∀ x ∈ List.insertionSort (fun a b => leFb a b = true)
      (l.filter (fun v => ! isNan v)), isFinite x = true :=
    fun x hx => hall x ((List.mem_insertionSort _).mp hx)
  have hs_len : (List.insertionSort (fun a b => leFb a b = true)
      (l.filter (fun v => ! isNan v))).length = (l.filter (fun v => ! isNan v)).length :=
    List.length_insertionSort _ _
  have hpos : 0 < (List.insertionSort (fun a b => leFb a b = true)
      (l.filter (fun v => ! isNan v))).length := by
    rw [hs_len]; exact List.length_pos.mpr hne
  rw [medianSorted]
  by_cases hodd : (List.insertionSort (fun a b => leFb a b = true)
      (l.filter (fun v => ! isNan v))).length % 2 = 1
  · rw [if_pos hodd, getD_of_lt _ _ _ (by omega)]
    exact hs_mem _ (List.getElem_mem _)
  · rw [if_neg hodd, getD_of_lt _ _ _ (by omega), getD_of_lt _ _ _ (by omega)]
    obtain ⟨a, ha⟩ := exists_fin_of_finite _ (hs_mem _ (List.getElem_mem _))
    obtain ⟨b, hb⟩ := exists_fin_of_finite _ (hs_mem _ (List.getElem_mem _))
    rw [ha, hb]
    rfl

/-- C9: after the inline fix, every previously non-finite entry of
`flux_err` equals the (`nan`-ignoring) median of the original
flux-error values, every previously finite entry is unchanged, and
`time` and `flux` are untouched — all unconditionally; and, provided
at least one original flux-error entry was finite and none was
infinite, every entry is finite afterwards. -/
theorem flux_err_fix (lc : LightCurve) :
    (fixLC lc).time = lc.time ∧
    (fixLC lc).flux = lc.flux ∧
    (fixLC lc).flux_err.length = lc.flux_err.length ∧
    (∀ i, i < lc.flux_err.length →
      (isFinite (lc.flux_err.getD i FVal.nan) = true →
        (fixLC lc).flux_err.getD i FVal.nan = lc.flux_err.getD i FVal.nan) ∧
      (isFinite (lc.flux_err.getD i FVal.nan) = false →
        (fixLC lc).flux_err.getD i FVal.nan = nanmedian lc.flux_err)) ∧
    ((∃ v ∈ lc.flux_err, isFinite v = true) →
      (∀ v ∈ lc.flux_err, v ≠ FVal.pinf ∧ v ≠ FVal.ninf) →
      ∀ v ∈ (fixLC lc).flux_err, isFinite v = true) := by
  refine ⟨rfl, rfl, by simp [fixLC, fixFluxErr], ?_, ?_⟩
  · intro i hi
    have hfe : (fixLC lc).flux_err.getD i FVal.nan
        = if isFinite (lc.flux_err.getD i FVal.nan) = true
          then lc.flux_err.getD i FVal.nan else nanmedian lc.flux_err :=
      getD_map _ _ FVal.nan FVal.nan i hi
    constructor
    · intro hf; rw [hfe, if_pos hf]
    · intro hf; rw [hfe, if_neg (by rw [hf]; simp)]
  · intro hfin hinf v hv
    rw [show (fixLC lc).flux_err = fixFluxErr lc.flux_err from rfl, fixFluxErr] at hv
    obtain ⟨x, hx, rfl⟩ := List.mem_map.mp hv
    by_cases hfx : isFinite x = true
    · simp [hfx]
    · simp only [Bool.not_eq_true] at hfx
      simp only [hfx, Bool.false_eq_true, if_false]
      exact nanmedian_finite lc.flux_err hfin hinf

/-- C9 witness: a light curve whose flux errors are `[1, nan]`; the
`nan` becomes the median `1` and everything ends up finite. -/
theorem flux_err_fix_witness :
    (fixLC ⟨[], [], [FVal.fin 1, FVal.nan]⟩).time = ([] : List FVal) ∧
    (fixLC ⟨[], [], [FVal.fin 1, FVal.nan]⟩).flux = ([] : List FVal) ∧
    (fixLC ⟨[], [], [FVal.fin 1, FVal.nan]⟩).flux_err.length
      = ([FVal.fin 1, FVal.nan] : List FVal).length ∧
    (∀ i, i < ([FVal.fin 1, FVal.nan] : List FVal).length →
      (isFinite (([FVal.fin 1, FVal.nan] : List FVal).getD i FVal.nan) = true →
        (fixLC ⟨[], [], [FVal.fin 1, FVal.nan]⟩).flux_err.getD i FVal.nan
          = ([FVal.fin 1, FVal.nan] : List FVal).getD i FVal.nan) ∧
      (isFinite (([FVal.fin 1, FVal.nan] : List FVal).getD i FVal.nan) = false →
        (fixLC ⟨[], [], [FVal.fin 1, FVal.nan]⟩).flux_err.getD i FVal.nan
          = nanmedian [FVal.fin 1, FVal.nan])) ∧
    (∀ v ∈ (fixLC ⟨[], [], [FVal.fin 1, FVal.nan]⟩).flux_err, isFinite v = true) := by
  obtain ⟨h1, h2, h3, h4, h5⟩ := flux_err_fix ⟨[], [], [FVal.fin 1, FVal.nan]⟩
  exact ⟨h1, h2, h3, h4, h5 (by decide) (by decide)⟩

end TessLongPeriod
